import Mathlib

/-!
Shallow embedding of `src/CircAcqBuffer.h` (sstucker/CircAcqBuffer), a
push-only single-producer single-consumer ring buffer with a spare-slot
"lock out" mechanism, together with proofs and refutations of the frozen
specification claims.

Modelling conventions:
* The element type `T` is modelled as `Int`; a frame is a `List Int`.
* Slots (`CircAcqElement`) live in an arena `slots : List CircAcqElement`
  addressed by natural-number slot ids; the C++ pointers `ring[i]` and
  `locked_out_buffer` become slot ids, so pointer aliasing is represented
  faithfully.
* `std::mutex` per slot becomes a `Bool` ("held") in `locks`; a C++
  busy-wait loop on a lock that is held (which in a sequential execution
  would spin forever) is modelled by returning `none`.
* C `int`/`long` become `Int` (no claim below approaches 2^31);
  `unsigned int` fields store their bit pattern as a `Nat`, so the C++
  assignment `index = -1` stores `4294967295`.
* `new T[element_size]` leaves the array contents indeterminate; the model
  uses zeros.  No claim below depends on the contents of a never-pushed
  slot's array.
-/

/-- Bit pattern of `(unsigned int)(-1)` on the 32-bit `unsigned int` used
by the source. -/
def UINT_NEG1 : Nat := 4294967295

/-- Embedding of C's `%` on `int` followed by the sign fix-up, i.e. the
source's

    inline int mod2(int a, int b) { int r = a % b; return r < 0 ? r + b : r; }

C's `%` on signed integers is truncated-division remainder, which is
`Int.tmod`. -/
def mod2 (a b : Int) : Int :=
  let r := Int.tmod a b
  if r < 0 then r + b else r

/-- Embedding of `CircAcqElement<T>`: the per-slot array, the slot's
current ring position (`unsigned int index`), and the cumulative push
count of the data it holds (`long count`, `-1` when never written). -/
structure CircAcqElement where
  arr : List Int
  index : Nat
  count : Int
deriving DecidableEq

instance : Inhabited CircAcqElement := ⟨⟨[], 0, 0⟩⟩

/-- Embedding of `CircAcqBuffer<T>`.  `slots` is the arena of
`ring_size + 1` slot storages; `ring` and `locked_out_buffer` hold slot
ids (the C++ pointers). -/
structure CircAcqBuffer where
  slots : List CircAcqElement
  ring : List Nat
  locked_out_buffer : Nat
  ring_size : Nat
  element_size : Nat
  head : Int
  count : Int
  locks : List Bool
  locked : Int
deriving DecidableEq

/-- Dereference a slot id (a C++ `CircAcqElement<T>*`). -/
def getSlot (s : CircAcqBuffer) (id : Nat) : CircAcqElement :=
  s.slots.getD id default

/-- Embedding of the constructor `CircAcqBuffer(int number_of_buffers,
int frame_size)`: ring slot `i` gets id `i` with `index = i`,
`count = -1`; the spare (`locked_out_buffer`) gets id `R` with
`index = (unsigned int)(-1)`, `count = -1`; `head = 0`, `count = 0`,
`locked = -1`, all per-slot locks free. -/
def mkBuffer (R E : Nat) : CircAcqBuffer :=
  { slots := (List.range R).map (fun i => { arr := List.replicate E 0, index := i, count := -1 })
      ++ [{ arr := List.replicate E 0, index := UINT_NEG1, count := -1 }]
    ring := List.range R
    locked_out_buffer := R
    ring_size := R
    element_size := E
    head := 0
    count := 0
    locks := List.replicate R false
    locked := -1 }

/-- The ring position examined by a lock-out request `n`:
`mod2(n, ring_size)` as a list index. -/
def reqIndex (s : CircAcqBuffer) (n : Nat) : Nat :=
  (mod2 (n : Int) (s.ring_size : Int)).toNat

/-- Embedding of the private `_lock_out(unsigned int n)`.  Note the
source's statements, in order:

    CircAcqElement<T>* tmp = locked_out_buffer;
    locked_out_buffer = ring[n];
    ring[n] = locked_out_buffer;
    ring[n]->index = n;

`tmp` is never read again, and the third statement reads
`locked_out_buffer` after the second has overwritten it, so `ring[n]` is
assigned its own value.  The embedding reproduces this literally. -/
def lock_out_aux (s : CircAcqBuffer) (n : Nat) : CircAcqBuffer :=
  let lob := s.ring.getD n 0
  let ring2 := s.ring.set n lob
  let sl := getSlot s lob
  { s with locked_out_buffer := lob
           ring := ring2
           slots := s.slots.set lob { sl with index := n } }

/-- Embedding of `lock_out_nowait(unsigned int n, T** buffer)`.  The
source tests `if (!locks[requested].try_lock())`: when `try_lock` FAILS
(lock already held) it performs the lock-out and returns the obtained
count; when `try_lock` SUCCEEDS it returns `-1` with the freshly acquired
lock still held.  `locks[requested].release()` (no such member on
`std::mutex`; the comment says "Exit critical section") is modelled as an
unlock.  Returns the new state and the returned `long`. -/
def lock_out_nowait (s : CircAcqBuffer) (n : Nat) : CircAcqBuffer × Int :=
  if s.locked ≠ -1 then (s, -1)
  else
    let requested := reqIndex s n
    if s.locks.getD requested false then
      let s1 := { s with locked := -2 }
      let s2 := lock_out_aux s1 requested
      let s3 := { s2 with locked := (requested : Int) }
      let s4 := { s3 with locks := s3.locks.set requested false }
      (s4, (getSlot s4 s4.locked_out_buffer).count)
    else
      ({ s with locks := s.locks.set requested true }, -1)

/-- Embedding of `lock_out_wait(unsigned int n, T** buffer)`.  The two
busy-wait loops (`while (locked.load() != -1);` and
`while (!locks[requested].try_lock());`) spin forever in a sequential
execution when their condition is initially stuck, modelled as `none`.
On completion returns the state, the array the caller's `*buffer` points
at, and the returned `long`.  The lock is acquired and released within
the call, so `locks` is unchanged; `locked` is left at `-2` (the source
never stores `requested` in this variant). -/
def lock_out_wait (s : CircAcqBuffer) (n : Nat) : Option (CircAcqBuffer × List Int × Int) :=
  if s.locked ≠ -1 then none
  else
    let requested := reqIndex s n
    if s.locks.getD requested false then none
    else
      let s1 := { s with locked := -2 }
      let s2 := lock_out_aux s1 requested
      some (s2, (getSlot s2 s2.locked_out_buffer).arr, (getSlot s2 s2.locked_out_buffer).count)

/-- Embedding of `release()`: `locked.store(-1)`. -/
def release (s : CircAcqBuffer) : CircAcqBuffer :=
  { s with locked := -1 }

/-- Embedding of `push(T* src)`.  `while (!locks[head].try_lock());`
spins forever if the head lock is held (`none`); otherwise the memcpy of
`sizeof(T) * element_size` bytes is `src.take element_size`, `count` is
incremented, the slot is stamped, `head` advances by `mod2(head + 1,
ring_size)` and the old head is returned.  The lock is acquired and
released within the call, so `locks` is unchanged. -/
def push (s : CircAcqBuffer) (src : List Int) : Option (CircAcqBuffer × Int) :=
  let h := s.head.toNat
  if s.locks.getD h false then none
  else
    let id := s.ring.getD h 0
    let e := getSlot s id
    let cnt := s.count + 1
    let e2 := { e with arr := src.take s.element_size, count := cnt }
    some ({ s with slots := s.slots.set id e2
                   count := cnt
                   head := mod2 (s.head + 1) ((s.ring_size : Int)) }, s.head)

/-- Embedding of `lock_out_head()`: spins on the head slot's lock
(`none` if held), then returns with the lock held and a reference to the
head slot's array. -/
def lock_out_head (s : CircAcqBuffer) : Option (CircAcqBuffer × List Int) :=
  let h := s.head.toNat
  if s.locks.getD h false then none
  else
    some ({ s with locks := s.locks.set h true }, (getSlot s (s.ring.getD h 0)).arr)

/-- Embedding of `release_head()`: increments `count`, stamps the head
slot, advances `head`, unlocks the old head slot, returns the old head.
(The `printf` is ignored.) -/
def release_head (s : CircAcqBuffer) : CircAcqBuffer × Int :=
  let h := s.head.toNat
  let id := s.ring.getD h 0
  let e := getSlot s id
  let cnt := s.count + 1
  ({ s with slots := s.slots.set id { e with count := cnt }
            count := cnt
            head := mod2 (s.head + 1) ((s.ring_size : Int))
            locks := s.locks.set h false }, s.head)

/-- Embedding of `get_latest_index()`: returns `count`. -/
def get_latest_index (s : CircAcqBuffer) : Int :=
  s.count

/-- Embedding of `clear()`.  The loop body spins on each ring position's
lock in turn; if any of the locks `0..ring_size-1` is held the loop never
completes (`none`).  Otherwise each ring slot gets `index = i`,
`count = -1`, then `count := 0`, `head := 0`, `locked := -1`, and finally
the spare gets `index = (unsigned int)(-1)`, `count = -1`.
`clearStep` is one loop iteration of the reset loop. -/
def clearStep (ring : List Nat) (acc : List CircAcqElement) (i : Nat) : List CircAcqElement :=
  let id := ring.getD i 0
  let e := acc.getD id default
  acc.set id { e with index := i, count := -1 }

def clear (s : CircAcqBuffer) : Option CircAcqBuffer :=
  if (List.range s.ring_size).any (fun i => s.locks.getD i false) then none
  else
    let slots1 := (List.range s.ring_size).foldl (clearStep s.ring) s.slots
    let sp := slots1.getD s.locked_out_buffer default
    let slots2 := slots1.set s.locked_out_buffer { sp with index := UINT_NEG1, count := -1 }
    some { s with slots := slots2, count := 0, head := 0, locked := -1 }

/-- Iterated `push`, one frame after another (the producer's steady
state); `none` as soon as one push would spin forever. -/
def pushSeq (s : CircAcqBuffer) : List (List Int) → Option CircAcqBuffer
  | [] => some s
  | f :: fs =>
    match push s f with
    | some (s2, _) => pushSeq s2 fs
    | none => none

/-- Structural well-formedness of a buffer state: positive capacity,
arrays of the constructed lengths, `head` a valid ring position, and all
slot handles pointing into the arena.  `mkBuffer R E` satisfies it for
`R > 0` and every operation preserves it. -/
def WF (s : CircAcqBuffer) : Prop :=
  0 < s.ring_size ∧
  s.ring.length = s.ring_size ∧
  s.locks.length = s.ring_size ∧
  s.slots.length = s.ring_size + 1 ∧
  0 ≤ s.head ∧ s.head < (s.ring_size : Int) ∧
  (∀ id ∈ s.ring, id < s.slots.length) ∧
  s.locked_out_buffer < s.slots.length

instance (s : CircAcqBuffer) : Decidable (WF s) := by
  unfold WF
  infer_instance

/-- All per-slot locks are free (the quiesced single-actor situation). -/
def AllFree (s : CircAcqBuffer) : Prop :=
  ∀ i, s.locks.getD i false = false

instance (s : CircAcqBuffer) : Decidable (AllFree s) := by
  have h : AllFree s ↔ ∀ i ∈ s.locks, i = false := by
    constructor
    · intro hf i hi
      rcases List.mem_iff_getElem.mp hi with ⟨j, hj, rfl⟩
      have := hf j
      rwa [List.getD_eq_getElem s.locks false hj] at this
    · intro h i
      by_cases hi : i < s.locks.length
      · rw [List.getD_eq_getElem s.locks false hi]
        exact h _ (List.getElem_mem hi)
      · rw [List.getD_eq_default s.locks false (Nat.le_of_not_lt hi)]
  exact decidable_of_iff _ h.symm

/-! ## List helper lemmas -/

theorem getD_set_self {α : Type} (l : List α) (i : Nat) (a d : α) (h : i < l.length) :
    (l.set i a).getD i d = a := by
  induction l generalizing i with
  | nil => simp at h
  | cons x xs ih =>
    cases i with
    | zero => simp
    | succ j =>
      simp only [List.set_cons_succ, List.getD_cons_succ]
      exact ih j (by simpa using h)

theorem getD_set_ne {α : Type} (l : List α) (i j : Nat) (a d : α) (h : i ≠ j) :
    (l.set i a).getD j d = l.getD j d := by
  induction l generalizing i j with
  | nil => simp
  | cons x xs ih =>
    cases i with
    | zero =>
      cases j with
      | zero => exact absurd rfl h
      | succ k => simp
    | succ i2 =>
      cases j with
      | zero => simp
      | succ k =>
        simp only [List.set_cons_succ, List.getD_cons_succ]
        exact ih i2 k (fun hc => h (by rw [hc]))

theorem getD_replicate_false (n i : Nat) :
    (List.replicate n false).getD i false = false := by
  induction n generalizing i with
  | zero => simp
  | succ m ih =>
    cases i with
    | zero => simp [List.replicate]
    | succ j => simp only [List.replicate, List.getD_cons_succ]; exact ih j

/-! ## Arithmetic lemmas about `mod2` -/

theorem neg_tmod_aux (a b : Int) : Int.tmod (-a) b = -(Int.tmod a b) := by
  rw [Int.tmod_def, Int.tmod_def, Int.neg_tdiv]
  ring

/-- For a positive modulus, the source's `mod2` agrees with mathematical
(Euclidean) mod. -/
theorem mod2_eq_emod (a b : Int) (hb : 0 < b) : mod2 a b = a % b := by
  unfold mod2
  simp only
  rcases le_or_lt 0 a with ha | ha
  · rw [Int.tmod_eq_emod ha hb.le]
    have h1 : 0 ≤ a % b := Int.emod_nonneg a (by omega)
    simp [not_lt.mpr h1]
  · have hneg : 0 ≤ -a := by omega
    have h1 : Int.tmod a b = -(Int.tmod (-a) b) := by rw [neg_tmod_aux]; ring
    have h2 : 0 ≤ Int.tmod (-a) b := Int.tmod_nonneg b hneg
    have h3 : Int.tmod (-a) b < b := Int.tmod_lt_of_pos (-a) hb
    by_cases hz : Int.tmod (-a) b = 0
    · have hz2 : Int.tmod a b = 0 := by omega
      rw [hz2]
      simp only [if_neg (by omega : ¬ (0:Int) < 0)]
      have hdvd : b ∣ a := Int.dvd_of_tmod_eq_zero hz2
      simp [Int.emod_eq_zero_of_dvd hdvd]
    · have h4 : Int.tmod a b < 0 := by omega
      rw [if_pos h4]
      have key : a % b = Int.tmod a b % b := by
        conv_lhs => rw [← Int.tmod_add_tdiv a b]
        rw [Int.add_mul_emod_self_left]
      have key2 : (Int.tmod a b + b) % b = Int.tmod a b % b := by
        have h5 := Int.add_mul_emod_self_left (a := Int.tmod a b) (b := b) (c := 1)
        rw [mul_one] at h5
        exact h5
      rw [key, ← key2]
      exact (Int.emod_eq_of_lt (by omega) (by omega)).symm

theorem mod2_range (a b : Int) (hb : 0 < b) : 0 ≤ mod2 a b ∧ mod2 a b < b := by
  rw [mod2_eq_emod a b hb]
  exact ⟨Int.emod_nonneg a (by omega), Int.emod_lt_of_pos a hb⟩

/-- Advancing an already-reduced cursor agrees with reducing the advanced
cursor: the arithmetic behind `head = count mod ring_size`. -/
theorem mod2_step (c b : Int) (hb : 0 < b) : mod2 (mod2 c b + 1) b = mod2 (c + 1) b := by
  rw [mod2_eq_emod _ b hb, mod2_eq_emod _ b hb, mod2_eq_emod _ b hb, Int.emod_add_emod]

theorem mod2_zero_left (b : Int) : mod2 0 b = 0 := by
  unfold mod2
  simp

/-- The ring position examined by a lock-out is a valid ring index. -/
theorem reqIndex_lt (s : CircAcqBuffer) (n : Nat) (hR : 0 < s.ring_size) :
    reqIndex s n < s.ring_size := by
  unfold reqIndex
  have hb : (0 : Int) < (s.ring_size : Int) := by exact_mod_cast hR
  have h := mod2_range ((n : Int)) ((s.ring_size : Int)) hb
  omega

/-! ## Characterisations of the operations -/

/-- What a completed `push` did: the guard was free, the returned position
is the old `head`, and the new state is the old one with the head slot
rewritten, `count` incremented and `head` advanced. -/
theorem push_eq_some {s : CircAcqBuffer} {src : List Int} {s2 : CircAcqBuffer} {p : Int}
    (h : push s src = some (s2, p)) :
    s.locks.getD s.head.toNat false = false ∧
    p = s.head ∧
    s2 = { s with
      slots := s.slots.set (s.ring.getD s.head.toNat 0)
        { getSlot s (s.ring.getD s.head.toNat 0) with
            arr := src.take s.element_size, count := s.count + 1 }
      count := s.count + 1
      head := mod2 (s.head + 1) (s.ring_size : Int) } := by
  unfold push at h
  dsimp only at h
  split at h
  · exact absurd h (by simp)
  · next hguard =>
    simp only [Option.some.injEq, Prod.mk.injEq] at h
    exact ⟨by simpa using hguard, h.2.symm, h.1.symm⟩

/-- On a quiesced state `push` always completes, adds one to `count`, and
leaves the locks alone. -/
theorem push_ok (s : CircAcqBuffer) (f : List Int) (hfree : AllFree s) :
    ∃ s2 p, push s f = some (s2, p) ∧ s2.count = s.count + 1 ∧ s2.locks = s.locks ∧
      s2.ring_size = s.ring_size := by
  have hguard : s.locks.getD s.head.toNat false = false := hfree _
  unfold push
  dsimp only
  rw [if_neg (by rw [hguard]; simp)]
  exact ⟨_, _, rfl, rfl, rfl, rfl⟩

/-- On a quiesced state every sequence of pushes completes and adds its
length to `count`. -/
theorem pushSeq_ok (fs : List (List Int)) : ∀ s : CircAcqBuffer, AllFree s →
    ∃ s2, pushSeq s fs = some s2 ∧ s2.count = s.count + fs.length ∧
      s2.locks = s.locks ∧ s2.ring_size = s.ring_size := by
  induction fs with
  | nil => exact fun s _ => ⟨s, rfl, by simp, rfl, rfl⟩
  | cons f fs ih =>
    intro s hfree
    obtain ⟨s2, p, hp, hc, hl, hr⟩ := push_ok s f hfree
    have hfree2 : AllFree s2 := by intro i; rw [hl]; exact hfree i
    obtain ⟨s3, hs3, hc3, hl3, hr3⟩ := ih s2 hfree2
    refine ⟨s3, ?_, by rw [hc3, hc]; simp only [List.length_cons]; push_cast; ring, by rw [hl3, hl], by rw [hr3, hr]⟩
    unfold pushSeq
    rw [hp]
    exact hs3

/-- The constructed buffer is quiesced. -/
theorem mkBuffer_allFree (R E : Nat) : AllFree (mkBuffer R E) := by
  intro i
  unfold mkBuffer
  simp only [List.getD_eq_getElem?_getD]
  have h := getD_replicate_false R i
  simp only [List.getD_eq_getElem?_getD] at h
  exact h

/-! ## Concrete scenarios from the specification -/

/-- The spec's concrete scenario: `ring_size = 4`, `element_size = 1`,
values `[10,20,30,40,50]` pushed (sequences 1..5). -/
def scenario5 : Option CircAcqBuffer :=
  pushSeq (mkBuffer 4 1) [[10], [20], [30], [40], [50]]

/-- The same scenario continued with a sixth push (sequences 1..6,
residents 3..6). -/
def scenario6 : Option CircAcqBuffer :=
  pushSeq (mkBuffer 4 1) [[10], [20], [30], [40], [50], [60]]

/-- Observable part of a completed lock-out: the data the caller's
`*buffer` points at and the returned count. -/
def lockOutView (s : Option CircAcqBuffer) (n : Nat) : Option (List Int × Int) :=
  (s.bind (fun u => lock_out_wait u n)).map (fun r => (r.2.1, r.2.2))

/-! ## Claim theorems -/

/-- C1 (code_bug evaluation): in the spec scenario the frames resident in
the ring carry sequences `[5, 2, 3, 4]` at positions `0..3`, so sequence
2 (value 20) is resident at position 1; yet `lock_out_wait(2)` examines
position `2 mod 4 = 2` and returns value 30 with sequence 3 — not the
requested resident frame — because `push` stores sequence `c` at position
`(c - 1) mod ring_size` while the lock-out functions read position
`n mod ring_size`.  `lock_out_wait(1)` returns value 20 with sequence 2
(the spec's expected answer for a different reason: position `1` holds
sequence 2). -/
theorem c1_exact_hit_code_eval :
    (scenario5.map (fun s => s.ring.map (fun id => (getSlot s id).count))) = some [5, 2, 3, 4] ∧
    lockOutView scenario5 2 = some ([30], 3) ∧
    lockOutView scenario5 1 = some ([20], 2) := by
  decide

/-- C2 (code_bug evaluation): in `_lock_out` the saved `tmp` is never
written back, so the "pointer swap" leaves `ring[n]` unchanged and makes
`locked_out_buffer` an alias of `ring[n]`.  Concretely: the fresh
4-buffer starts with spare slot id 4; after `lock_out_wait(0)` the
checked-out handle is slot 0, which is still reachable at ring position
0, and slot 4 is reachable through nothing — 4 live slots, not the
claimed constant 5. -/
theorem c2_no_swap_code_eval :
    (mkBuffer 4 1).locked_out_buffer = 4 ∧
    ((lock_out_wait (mkBuffer 4 1) 0).map
      (fun r => (r.1.locked_out_buffer, r.1.ring))) = some (0, [0, 1, 2, 3]) := by
  decide

/-- C3 (code_bug evaluation): after the five pushes `head = 1`; the
producer takes slot 1's lock via `lock_out_head()`.  With nothing checked
out (`locked = -1`) and the requested position's lock held, the claim
requires `lock_out_nowait(1)` to return `-1` and change nothing; the
source's inverted `if (!locks[requested].try_lock())` instead performs
the lock-out, stores `locked = 1` and returns sequence 2.  Conversely on
a fresh idle buffer with the lock free the call returns `-1` but leaves
position 0's lock permanently acquired. -/
theorem c3_nowait_code_eval :
    ((scenario5.bind lock_out_head).map (fun r => r.1.locks))
      = some [false, true, false, false] ∧
    ((scenario5.bind lock_out_head).map
      (fun r => ((lock_out_nowait r.1 1).2, (lock_out_nowait r.1 1).1.locked, r.1.locked)))
      = some (2, 1, -1) ∧
    (lock_out_nowait (mkBuffer 4 1) 0).2 = -1 ∧
    (lock_out_nowait (mkBuffer 4 1) 0).1.locks = [true, false, false, false] := by
  decide

/-- C4 (code_bug evaluation): after six pushes the residents are
sequences 3..6 (`[5, 6, 3, 4]` at positions 0..3).  Requesting evicted
sequence 1 (`s = 1 ≤ k = 2`) must per the claim return the oldest
resident, sequence 3; the code returns sequence 6 (position `1 mod 4`).
Requesting resident sequence 6 returns sequence 3 — a lower sequence than
requested while sequence 6 is resident — because the lock-out reads
position `n mod ring_size` instead of `(n - 1) mod ring_size`. -/
theorem c4_staleness_code_eval :
    (scenario6.map (fun s => s.ring.map (fun id => (getSlot s id).count))) = some [5, 6, 3, 4] ∧
    lockOutView scenario6 1 = some ([60], 6) ∧
    lockOutView scenario6 6 = some ([30], 3) := by
  decide

/-- C5 (code_bug evaluation): after the fifth push `count = 5` and the
newly pushed frame `[50]` sits at position 0, but `lock_out_wait(5)`
reads position `5 mod 4 = 1` and returns the stale frame `[20]` with
sequence 2 — not data bit-identical to the frame just pushed. -/
theorem c5_round_trip_code_eval :
    (scenario5.map (fun s => get_latest_index s)) = some 5 ∧
    lockOutView scenario5 5 = some ([20], 2) ∧
    ([20] : List Int) ≠ [50] := by
  decide

/-! ## Characterisation of `clear` -/

theorem clearStep_length (ring : List Nat) (acc : List CircAcqElement) (i : Nat) :
    (clearStep ring acc i).length = acc.length := by
  unfold clearStep
  simp

theorem clearLoop_length (ring : List Nat) (idxs : List Nat) :
    ∀ acc : List CircAcqElement, (idxs.foldl (clearStep ring) acc).length = acc.length := by
  induction idxs with
  | nil => intro acc; rfl
  | cons i idxs ih =>
    intro acc
    rw [List.foldl_cons, ih, clearStep_length]

/-- What a completed `clear` did to the cursor state. -/
theorem clear_eq_some {s t : CircAcqBuffer} (h : clear s = some t) :
    (∀ i < s.ring_size, s.locks.getD i false = false) ∧
    t.count = 0 ∧ t.head = 0 ∧ t.locked = -1 ∧ t.locks = s.locks ∧ t.ring = s.ring ∧
    t.ring_size = s.ring_size ∧ t.element_size = s.element_size ∧
    t.locked_out_buffer = s.locked_out_buffer ∧
    t.slots.length = s.slots.length ∧
    t.slots = ((List.range s.ring_size).foldl (clearStep s.ring) s.slots).set
      s.locked_out_buffer
      { ((List.range s.ring_size).foldl (clearStep s.ring) s.slots).getD s.locked_out_buffer default
          with index := UINT_NEG1, count := -1 } := by
  unfold clear at h
  split at h
  · exact absurd h (by simp)
  · next hguard =>
    simp only [Option.some.injEq] at h
    subst h
    refine ⟨?_, rfl, rfl, rfl, rfl, rfl, rfl, rfl, rfl, ?_, rfl⟩
    · intro i hi
      by_contra hne
      exact hguard (List.any_eq_true.mpr ⟨i, List.mem_range.mpr hi, by
        cases hx : s.locks.getD i false with
        | true => rfl
        | false => exact absurd hx hne⟩)
    · simp [clearLoop_length]

/-- C6: after N successful pushes since construction, or since a
completed `clear()`, `get_latest_index()` returns N; and every successful
push increments the cumulative count by exactly one. -/
theorem c6_sequence_monotonicity (R E : Nat) (fs gs : List (List Int))
    (s t : CircAcqBuffer) (hclear : clear s = some t)
    (hlen : s.locks.length = s.ring_size) :
    (∃ s2, pushSeq (mkBuffer R E) fs = some s2 ∧ get_latest_index s2 = (fs.length : Int)) ∧
    (∃ t2, pushSeq t gs = some t2 ∧ get_latest_index t2 = (gs.length : Int)) ∧
    (∀ (u u2 : CircAcqBuffer) (f : List Int) (p : Int),
      push u f = some (u2, p) → u2.count = u.count + 1) := by
  obtain ⟨hfree, hcnt, -, -, hlocks, -, hrs, -⟩ := clear_eq_some hclear
  refine ⟨?_, ?_, ?_⟩
  · obtain ⟨s2, hs2, hc, -, -⟩ := pushSeq_ok fs (mkBuffer R E) (mkBuffer_allFree R E)
    refine ⟨s2, hs2, ?_⟩
    unfold get_latest_index
    rw [hc]
    simp [mkBuffer]
  · have hfreet : AllFree t := by
      intro i
      rw [hlocks]
      by_cases hi : i < s.ring_size
      · exact hfree i hi
      · exact List.getD_eq_default _ _ (by omega)
    obtain ⟨t2, ht2, hc, -, -⟩ := pushSeq_ok gs t hfreet
    refine ⟨t2, ht2, ?_⟩
    unfold get_latest_index
    rw [hc, hcnt]
    simp
  · intro u u2 f p hp
    have := (push_eq_some hp).2.2
    rw [this]

/-- C6 witness: the theorem applied to `ring_size = 2`, `element_size =
1`, one push after construction and one push after a `clear`. -/
theorem c6_witness :
    clear (mkBuffer 2 1) = some ((clear (mkBuffer 2 1)).getD (mkBuffer 2 1)) ∧
    (mkBuffer 2 1).locks.length = (mkBuffer 2 1).ring_size ∧
    ((∃ s2, pushSeq (mkBuffer 2 1) [[7]] = some s2 ∧
        get_latest_index s2 = (([[7]] : List (List Int)).length : Int)) ∧
      (∃ t2, pushSeq ((clear (mkBuffer 2 1)).getD (mkBuffer 2 1)) [[8]] = some t2 ∧
        get_latest_index t2 = (([[8]] : List (List Int)).length : Int)) ∧
      (∀ (u u2 : CircAcqBuffer) (f : List Int) (p : Int),
        push u f = some (u2, p) → u2.count = u.count + 1)) :=
  ⟨by decide, by decide,
    c6_sequence_monotonicity 2 1 [[7]] [[8]] (mkBuffer 2 1)
      ((clear (mkBuffer 2 1)).getD (mkBuffer 2 1)) (by decide) (by decide)⟩

/-- C10: `mod2` lands in `[0, b)` for every positive modulus; hence the
ring position a lock-out examines and the `head` maintained by `push` and
`release_head` are valid indices below `ring_size` (and below the `ring`
and `locks` array lengths). -/
theorem c10_index_arithmetic (a b : Int) (hb : 0 < b) (s : CircAcqBuffer) (n : Nat)
    (hwf : WF s) :
    (0 ≤ mod2 a b ∧ mod2 a b < b) ∧
    reqIndex s n < s.ring_size ∧
    reqIndex s n < s.ring.length ∧
    reqIndex s n < s.locks.length ∧
    (∀ (src : List Int) (s2 : CircAcqBuffer) (p : Int),
      push s src = some (s2, p) → 0 ≤ s2.head ∧ s2.head < (s.ring_size : Int)) ∧
    (0 ≤ (release_head s).1.head ∧ (release_head s).1.head < (s.ring_size : Int)) := by
  obtain ⟨hR, hring, hlocks, -, -, -, -, -⟩ := hwf
  have hbR : (0 : Int) < (s.ring_size : Int) := by exact_mod_cast hR
  have hreq := reqIndex_lt s n hR
  refine ⟨mod2_range a b hb, hreq, by omega, by omega, ?_, ?_⟩
  · intro src s2 p hp
    have h2 := (push_eq_some hp).2.2
    have hrange := mod2_range (s.head + 1) (s.ring_size : Int) hbR
    rw [h2]
    exact hrange
  · have hrange := mod2_range (s.head + 1) (s.ring_size : Int) hbR
    unfold release_head
    exact hrange

/-- C10 witness: the theorem applied at `a = -7`, `b = 3` and a fresh
2-slot buffer with request 5. -/
theorem c10_witness :
    (0 : Int) < 3 ∧ WF (mkBuffer 2 1) ∧
    (((0 : Int) ≤ mod2 (-7) 3 ∧ mod2 (-7) 3 < 3) ∧
      reqIndex (mkBuffer 2 1) 5 < (mkBuffer 2 1).ring_size ∧
      reqIndex (mkBuffer 2 1) 5 < (mkBuffer 2 1).ring.length ∧
      reqIndex (mkBuffer 2 1) 5 < (mkBuffer 2 1).locks.length ∧
      (∀ (src : List Int) (s2 : CircAcqBuffer) (p : Int),
        push (mkBuffer 2 1) src = some (s2, p) →
          0 ≤ s2.head ∧ s2.head < ((mkBuffer 2 1).ring_size : Int)) ∧
      (0 ≤ (release_head (mkBuffer 2 1)).1.head ∧
        (release_head (mkBuffer 2 1)).1.head < ((mkBuffer 2 1).ring_size : Int))) :=
  ⟨by decide, by decide, c10_index_arithmetic (-7) 3 (by decide) (mkBuffer 2 1) 5 (by decide)⟩

/-- What a completed `lock_out_wait` did: nothing was checked out, the
requested position's lock was free, and the new state is `_lock_out`
applied after `locked.store(-2)`. -/
theorem lock_out_wait_eq_some {s : CircAcqBuffer} {n : Nat} {s2 : CircAcqBuffer}
    {arr : List Int} {c : Int} (h : lock_out_wait s n = some (s2, arr, c)) :
    s.locked = -1 ∧ s.locks.getD (reqIndex s n) false = false ∧
    s2 = lock_out_aux { s with locked := -2 } (reqIndex s n) ∧
    arr = (getSlot s2 s2.locked_out_buffer).arr ∧
    c = (getSlot s2 s2.locked_out_buffer).count := by
  unfold lock_out_wait at h
  split at h
  · exact absurd h (by simp)
  · next hlocked =>
    dsimp only at h
    split at h
    · exact absurd h (by simp)
    · next hguard =>
      simp only [Option.some.injEq, Prod.mk.injEq] at h
      refine ⟨by omega, by simpa using hguard, h.1.symm, ?_, ?_⟩
      · rw [← h.1]; exact h.2.1.symm
      · rw [← h.1]; exact h.2.2.symm

/-- C9: a completed `lock_out_wait(n)` leaves `head`, `count`, the lock
array, the dimensions, and the data array and sequence of every slot in
the arena unchanged; slots other than the one at ring position
`n mod ring_size` are untouched entirely, ring positions other than the
requested one keep their handles, and only the spare handle, the
requested position's slot `index` field, and the `locked` flag change. -/
theorem c9_lock_out_frame_effect (s : CircAcqBuffer) (n : Nat) (s2 : CircAcqBuffer)
    (arr : List Int) (c : Int) (hwf : WF s)
    (h : lock_out_wait s n = some (s2, arr, c)) :
    s2.head = s.head ∧ s2.count = s.count ∧ s2.locks = s.locks ∧
    s2.ring_size = s.ring_size ∧ s2.element_size = s.element_size ∧
    s2.slots.length = s.slots.length ∧
    (∀ id : Nat, (getSlot s2 id).arr = (getSlot s id).arr ∧
      (getSlot s2 id).count = (getSlot s id).count) ∧
    (∀ id : Nat, id ≠ s.ring.getD (reqIndex s n) 0 → getSlot s2 id = getSlot s id) ∧
    (∀ p2 : Nat, p2 ≠ reqIndex s n → s2.ring.getD p2 0 = s.ring.getD p2 0) ∧
    s2.locked = -2 ∧ s2.locked_out_buffer = s.ring.getD (reqIndex s n) 0 := by
  obtain ⟨hR, hring, hlocks, hslots, hh0, hh1, hbound, hlob⟩ := hwf
  obtain ⟨hlocked, hguard, hs2, harr, hc⟩ := lock_out_wait_eq_some h
  have hreq : reqIndex s n < s.ring_size := reqIndex_lt s n hR
  have hmem : s.ring.getD (reqIndex s n) 0 ∈ s.ring := by
    have hlt : reqIndex s n < s.ring.length := by omega
    rw [List.getD_eq_getElem s.ring 0 hlt]
    exact List.getElem_mem hlt
  have hidlt : s.ring.getD (reqIndex s n) 0 < s.slots.length := hbound _ hmem
  subst hs2
  unfold lock_out_aux
  dsimp only
  refine ⟨rfl, rfl, rfl, rfl, rfl, by simp, ?_, ?_, ?_, rfl, rfl⟩
  · intro id
    by_cases hid : id = s.ring.getD (reqIndex s n) 0
    · subst hid
      unfold getSlot
      dsimp only
      rw [getD_set_self _ _ _ _ hidlt]
      exact ⟨rfl, rfl⟩
    · unfold getSlot
      dsimp only
      rw [getD_set_ne _ _ _ _ _ (fun hcon => hid hcon.symm)]
      exact ⟨rfl, rfl⟩
  · intro id hid
    unfold getSlot
    dsimp only
    rw [getD_set_ne _ _ _ _ _ (fun hcon => hid hcon.symm)]
  · intro p2 hp2
    rw [getD_set_ne _ _ _ _ _ (fun hcon => hp2 hcon.symm)]

/-- C9 witness: the theorem applied to a fresh 2-slot buffer and request
3. -/
theorem c9_witness :
    WF (mkBuffer 2 1) ∧
    lock_out_wait (mkBuffer 2 1) 3
      = some ((lock_out_wait (mkBuffer 2 1) 3).getD (mkBuffer 2 1, [], 0)) ∧
    ((lock_out_wait (mkBuffer 2 1) 3).getD (mkBuffer 2 1, [], 0)).1.head = (mkBuffer 2 1).head :=
  ⟨by decide, by decide,
    (c9_lock_out_frame_effect (mkBuffer 2 1) 3
      ((lock_out_wait (mkBuffer 2 1) 3).getD (mkBuffer 2 1, [], 0)).1
      ((lock_out_wait (mkBuffer 2 1) 3).getD (mkBuffer 2 1, [], 0)).2.1
      ((lock_out_wait (mkBuffer 2 1) 3).getD (mkBuffer 2 1, [], 0)).2.2
      (by decide) (by decide)).1⟩

/-- The cursor-consistency invariant: `head` and `count` are two views of
the same cursor, `head = count mod ring_size`. -/
def cursorInv (u : CircAcqBuffer) : Prop :=
  u.head = mod2 u.count (u.ring_size : Int)

/-- C7: a completed `push(frame)` returns the old `head`, increments
`count` by one, stamps the slot at the old head position with the frame
(all `element_size` elements) and the new count, and advances `head` to
`(head + 1) mod ring_size`; under the cursor invariant the written
position equals `(count - 1) mod ring_size` after the push, and the
invariant `head = count mod ring_size` is established by the constructor
and preserved by every operation. -/
theorem c7_push_postcondition (s : CircAcqBuffer) (src : List Int) (s2 : CircAcqBuffer)
    (p : Int) (hwf : WF s) (hlen : src.length = s.element_size)
    (hp : push s src = some (s2, p)) :
    p = s.head ∧
    s2.count = s.count + 1 ∧
    s2.head = mod2 (s.head + 1) (s.ring_size : Int) ∧
    (getSlot s2 (s.ring.getD s.head.toNat 0)).arr = src ∧
    (getSlot s2 (s.ring.getD s.head.toNat 0)).count = s.count + 1 ∧
    (cursorInv s → cursorInv s2 ∧ p = mod2 (s2.count - 1) (s2.ring_size : Int)) ∧
    (∀ (u u2 : CircAcqBuffer) (nn : Nat) (a2 : List Int) (c2 : Int),
      cursorInv u → lock_out_wait u nn = some (u2, a2, c2) → cursorInv u2) ∧
    (∀ (u : CircAcqBuffer) (nn : Nat), cursorInv u → cursorInv (lock_out_nowait u nn).1) ∧
    (∀ u : CircAcqBuffer, cursorInv u → cursorInv (release u)) ∧
    (∀ (u u2 : CircAcqBuffer) (a2 : List Int),
      cursorInv u → lock_out_head u = some (u2, a2) → cursorInv u2) ∧
    (∀ u : CircAcqBuffer, 0 < u.ring_size → cursorInv u → cursorInv (release_head u).1) ∧
    (∀ u u2 : CircAcqBuffer, clear u = some u2 → cursorInv u2) ∧
    (∀ R E : Nat, cursorInv (mkBuffer R E)) := by
  obtain ⟨hR, hring, hlocks, hslots, hh0, hh1, hbound, hlob⟩ := hwf
  have hbR : (0 : Int) < (s.ring_size : Int) := by exact_mod_cast hR
  obtain ⟨hguard, hpp, hs2⟩ := push_eq_some hp
  have hmem : s.ring.getD s.head.toNat 0 ∈ s.ring := by
    have hlt : s.head.toNat < s.ring.length := by omega
    rw [List.getD_eq_getElem s.ring 0 hlt]
    exact List.getElem_mem hlt
  have hidlt : s.ring.getD s.head.toNat 0 < s.slots.length := hbound _ hmem
  subst hs2
  refine ⟨hpp, rfl, rfl, ?_, ?_, ?_, ?_, ?_, ?_, ?_, ?_, ?_, ?_⟩
  · unfold getSlot
    dsimp only
    rw [getD_set_self _ _ _ _ hidlt, ← hlen, List.take_length]
  · unfold getSlot
    dsimp only
    rw [getD_set_self _ _ _ _ hidlt]
  · intro hinv
    unfold cursorInv at *
    dsimp only
    constructor
    · rw [hinv, mod2_step _ _ hbR]
    · rw [hpp, hinv]
      norm_num
  · intro u u2 nn a2 c2 hinv hlw
    obtain ⟨-, -, hu2, -, -⟩ := lock_out_wait_eq_some hlw
    subst hu2
    unfold cursorInv lock_out_aux at *
    exact hinv
  · intro u nn hinv
    unfold lock_out_nowait
    split
    · exact hinv
    · dsimp only
      split
      · unfold cursorInv lock_out_aux at *
        exact hinv
      · exact hinv
  · intro u hinv
    exact hinv
  · intro u u2 a2 hinv hlh
    unfold lock_out_head at hlh
    dsimp only at hlh
    split at hlh
    · exact absurd hlh (by simp)
    · simp only [Option.some.injEq, Prod.mk.injEq] at hlh
      rw [← hlh.1]
      exact hinv
  · intro u hRu hinv
    have hbRu : (0 : Int) < (u.ring_size : Int) := by exact_mod_cast hRu
    unfold cursorInv release_head at *
    dsimp only
    rw [hinv, mod2_step _ _ hbRu]
  · intro u u2 hclear
    obtain ⟨-, hcnt, hhd, -, -, -, hrs, -⟩ := clear_eq_some hclear
    unfold cursorInv
    rw [hcnt, hhd, mod2_zero_left]
  · intro R E
    unfold cursorInv mkBuffer
    rw [mod2_zero_left]

/-- C7 witness: the theorem applied to a fresh 2-slot buffer of
element size 1 and the frame `[5]`. -/
theorem c7_witness :
    WF (mkBuffer 2 1) ∧ ([5] : List Int).length = (mkBuffer 2 1).element_size ∧
    push (mkBuffer 2 1) [5] = some ((push (mkBuffer 2 1) [5]).getD (mkBuffer 2 1, 0)) ∧
    ((push (mkBuffer 2 1) [5]).getD (mkBuffer 2 1, 0)).2 = (mkBuffer 2 1).head :=
  ⟨by decide, by decide, by decide,
    (c7_push_postcondition (mkBuffer 2 1) [5]
      ((push (mkBuffer 2 1) [5]).getD (mkBuffer 2 1, 0)).1
      ((push (mkBuffer 2 1) [5]).getD (mkBuffer 2 1, 0)).2
      (by decide) (by decide) (by decide)).1⟩

/-- Every write the reset loop performs stores `count = -1`, so a slot
whose count is already `-1` keeps it through the rest of the loop. -/
theorem clearLoop_count_preserved (ring : List Nat) (idxs : List Nat) :
    ∀ (slots : List CircAcqElement) (id : Nat),
      (slots.getD id default).count = -1 →
      ((idxs.foldl (clearStep ring) slots).getD id default).count = -1 := by
  induction idxs with
  | nil => exact fun slots id h2 => h2
  | cons i idxs ih =>
    intro slots id h2
    rw [List.foldl_cons]
    apply ih
    unfold clearStep
    dsimp only
    by_cases hid : ring.getD i 0 = id
    · subst hid
      by_cases hlt : ring.getD i 0 < slots.length
      · rw [getD_set_self _ _ _ _ hlt]
      · rw [List.set_eq_of_length_le (by omega)]
        exact h2
    · rw [getD_set_ne _ _ _ _ _ hid]
      exact h2

/-- After the reset loop, every ring slot addressed by a processed loop
index has `count = -1`. -/
theorem clearLoop_sets_count (ring : List Nat) (idxs : List Nat) :
    ∀ (slots : List CircAcqElement) (j : Nat), j ∈ idxs →
      (∀ i ∈ idxs, ring.getD i 0 < slots.length) →
      ((idxs.foldl (clearStep ring) slots).getD (ring.getD j 0) default).count = -1 := by
  induction idxs with
  | nil => intro slots j hj _; simp at hj
  | cons i idxs ih =>
    intro slots j hj hb
    rw [List.foldl_cons]
    rcases List.mem_cons.mp hj with hji | hji
    · subst hji
      apply clearLoop_count_preserved
      unfold clearStep
      dsimp only
      rw [getD_set_self _ _ _ _ (hb j (List.mem_cons_self j idxs))]
    · apply ih _ j hji
      intro i2 hi2
      rw [clearStep_length]
      exact hb i2 (List.mem_cons_of_mem _ hi2)

/-- A `lock_out_wait` whose two spin conditions are initially clear
completes, producing exactly the `_lock_out`-transformed state. -/
theorem lock_out_wait_completes (u : CircAcqBuffer) (n : Nat)
    (h1 : u.locked = -1) (h2 : u.locks.getD (reqIndex u n) false = false) :
    lock_out_wait u n = some (lock_out_aux { u with locked := -2 } (reqIndex u n),
      (getSlot (lock_out_aux { u with locked := -2 } (reqIndex u n))
        (lock_out_aux { u with locked := -2 } (reqIndex u n)).locked_out_buffer).arr,
      (getSlot (lock_out_aux { u with locked := -2 } (reqIndex u n))
        (lock_out_aux { u with locked := -2 } (reqIndex u n)).locked_out_buffer).count) := by
  unfold lock_out_wait
  rw [if_neg (by omega)]
  dsimp only
  rw [if_neg (by rw [h2]; simp)]

/-- `_lock_out` changes no slot's data array or count (it only rewrites
the `index` field of the slot at the examined ring position). -/
theorem getSlot_lock_out_aux (u : CircAcqBuffer) (m : Nat) (id : Nat)
    (hlt : u.ring.getD m 0 < u.slots.length) :
    (getSlot (lock_out_aux u m) id).arr = (getSlot u id).arr ∧
    (getSlot (lock_out_aux u m) id).count = (getSlot u id).count := by
  unfold lock_out_aux getSlot
  dsimp only
  by_cases hid : id = u.ring.getD m 0
  · subst hid
    rw [getD_set_self _ _ _ _ hlt]
    exact ⟨rfl, rfl⟩
  · rw [getD_set_ne _ _ _ _ _ (fun hcon => hid hcon.symm)]
    exact ⟨rfl, rfl⟩

/-- C8: on a quiesced well-formed buffer `clear()` completes; afterwards
`get_latest_index()` is 0, `head` is 0, nothing is checked out, every
ring slot's sequence and the spare's sequence equal the empty sentinel
`-1`, the slot storage is still there (same arena size), and any
subsequent lock-out (for any requested sequence, in particular any
sequence ≥ 1) completes and reports the empty sentinel `-1`. -/
theorem c8_clear_reset (s : CircAcqBuffer) (hwf : WF s) (hfree : AllFree s) :
    ∃ t, clear s = some t ∧
      get_latest_index t = 0 ∧ t.head = 0 ∧ t.locked = -1 ∧
      (∀ i, i < t.ring_size → (getSlot t (t.ring.getD i 0)).count = -1) ∧
      (getSlot t t.locked_out_buffer).count = -1 ∧
      t.slots.length = s.slots.length ∧
      (∀ n : Nat, ∃ (t2 : CircAcqBuffer) (a2 : List Int),
        lock_out_wait t n = some (t2, a2, -1)) := by
  obtain ⟨hR, hring, hlocks, hslots, hh0, hh1, hbound, hlob⟩ := hwf
  have hguardneg : ¬ ((List.range s.ring_size).any (fun i => s.locks.getD i false) = true) := by
    rw [List.any_eq_true]
    rintro ⟨i, -, hgei⟩
    rw [hfree i] at hgei
    exact Bool.false_ne_true hgei
  have hclear : ∃ t, clear s = some t := by
    unfold clear
    rw [if_neg hguardneg]
    exact ⟨_, rfl⟩
  obtain ⟨t, ht⟩ := hclear
  obtain ⟨-, hcnt, hhd, hlk, hlks, hrg, hrs, hes, hlobt, hslen, hslots2⟩ := clear_eq_some ht
  have hbnd : ∀ i ∈ List.range s.ring_size, s.ring.getD i 0 < s.slots.length := by
    intro i hi
    have hilt : i < s.ring.length := by
      rw [hring]
      exact List.mem_range.mp hi
    apply hbound
    rw [List.getD_eq_getElem s.ring 0 hilt]
    exact List.getElem_mem hilt
  have hloop_len : ((List.range s.ring_size).foldl (clearStep s.ring) s.slots).length
      = s.slots.length := clearLoop_length s.ring _ s.slots
  have hringcnt : ∀ i, i < s.ring_size → (getSlot t (s.ring.getD i 0)).count = -1 := by
    intro i hi
    unfold getSlot
    rw [hslots2]
    by_cases hsp : s.locked_out_buffer = s.ring.getD i 0
    · rw [← hsp, getD_set_self _ _ _ _ (by omega)]
    · rw [getD_set_ne _ _ _ _ _ hsp]
      exact clearLoop_sets_count s.ring _ s.slots i (List.mem_range.mpr hi) hbnd
  have hsparecnt : (getSlot t t.locked_out_buffer).count = -1 := by
    unfold getSlot
    rw [hslots2, hlobt, getD_set_self _ _ _ _ (by omega)]
  refine ⟨t, ht, by unfold get_latest_index; rw [hcnt], hhd, hlk, ?_, hsparecnt, hslen, ?_⟩
  · intro i hi
    rw [hrg]
    exact hringcnt i (by rw [← hrs]; exact hi)
  · intro n
    have hreq : reqIndex t n < s.ring_size := by
      have := reqIndex_lt t n (by rw [hrs]; exact hR)
      omega
    have hfree2 : t.locks.getD (reqIndex t n) false = false := by
      rw [hlks]
      exact hfree _
    have hcomplete := lock_out_wait_completes t n hlk hfree2
    refine ⟨lock_out_aux { t with locked := -2 } (reqIndex t n),
      (getSlot (lock_out_aux { t with locked := -2 } (reqIndex t n))
        (lock_out_aux { t with locked := -2 } (reqIndex t n)).locked_out_buffer).arr, ?_⟩
    rw [hcomplete]
    have hlob2 : (lock_out_aux { t with locked := -2 } (reqIndex t n)).locked_out_buffer
        = t.ring.getD (reqIndex t n) 0 := rfl
    have hltb : ({ t with locked := -2 } : CircAcqBuffer).ring.getD (reqIndex t n) 0
        < ({ t with locked := -2 } : CircAcqBuffer).slots.length := by
      show t.ring.getD (reqIndex t n) 0 < t.slots.length
      rw [hrg, hslen]
      apply hbound
      have hilt : reqIndex t n < s.ring.length := by omega
      rw [List.getD_eq_getElem s.ring 0 hilt]
      exact List.getElem_mem hilt
    have heff := getSlot_lock_out_aux { t with locked := -2 } (reqIndex t n)
      (t.ring.getD (reqIndex t n) 0) hltb
    simp only [Option.some.injEq, Prod.mk.injEq, true_and]
    rw [hlob2, heff.2]
    show (getSlot t (t.ring.getD (reqIndex t n) 0)).count = -1
    rw [hrg]
    exact hringcnt _ hreq

/-- C8 witness: the theorem applied to a fresh, quiesced 2-slot buffer. -/
theorem c8_witness :
    WF (mkBuffer 2 1) ∧ AllFree (mkBuffer 2 1) ∧
    (∃ t, clear (mkBuffer 2 1) = some t ∧
      get_latest_index t = 0 ∧ t.head = 0 ∧ t.locked = -1 ∧
      (∀ i, i < t.ring_size → (getSlot t (t.ring.getD i 0)).count = -1) ∧
      (getSlot t t.locked_out_buffer).count = -1 ∧
      t.slots.length = (mkBuffer 2 1).slots.length ∧
      (∀ n : Nat, ∃ (t2 : CircAcqBuffer) (a2 : List Int),
        lock_out_wait t n = some (t2, a2, -1))) :=
  ⟨by decide, by decide, c8_clear_reset (mkBuffer 2 1) (by decide) (by decide)⟩
